import Mathlib

/-!
Shallow embedding of `optimal_guide_finder/guide_finder.py` (the sgRNAble
entry point) and proofs about its sequence store, genome construction and
result ranking.

The embedding models:
* the nucleotide alphabet with upper- and lower-case symbols, `upper` and
  Biopython's `reverse_complement`;
* `get_sequence(args)`: reading target records and building the combined
  genome, where the copy-number argument is either the default integer `1`
  or an explicit per-file list (lines 53-75 of the source);
* the doubled reference genome `ref_record + ref_record.reverse_complement()`
  written by `main` (lines 105-110);
* the ranking block of `main` (lines 122-128): pandas
  `sort_values(by=['Gene/ORF Name', 'Entropy Score'])` (a stable
  lexicographic sort), `drop_duplicates()` (keep the first of rows equal in
  every column), and the per-gene `np.arange(1, n+1)` rank assignment;
* the `os.makedirs` / `except FileExistsError: pass` prologue of `main`
  (lines 96-100) over a small file-system state.
-/

namespace GuideFinder

/-- Nucleotide symbols as read from a FASTA file: the four bases in both
upper case (`A`,`C`,`G`,`T`) and lower case (`a`,`c`,`g`,`t`). -/
inductive Nuc : Type where
  | A | C | G | T
  | a | c | g | t
deriving DecidableEq, Repr

namespace Nuc

/-- `str.upper()` on one symbol. -/
def upper : Nuc → Nuc
  | A | a => A
  | C | c => C
  | G | g => G
  | T | t => T

/-- Whether a symbol is upper case. -/
def isUpper : Nuc → Bool
  | A | C | G | T => true
  | _ => false

/-- Watson-Crick complement, case preserving (as in Biopython). -/
def compl : Nuc → Nuc
  | A => T
  | T => A
  | C => G
  | G => C
  | a => t
  | t => a
  | c => g
  | g => c

theorem isUpper_upper (x : Nuc) : isUpper (upper x) = true := by
  cases x <;> rfl

theorem compl_compl (x : Nuc) : compl (compl x) = x := by
  cases x <;> rfl

end Nuc

/-- A nucleotide sequence (Biopython `Seq`). -/
abbrev Sequence := List Nuc

/-- `seq.upper()`. -/
def upperSeq (s : Sequence) : Sequence := s.map Nuc.upper

/-- Biopython `reverse_complement()`: complement each base, then reverse. -/
def reverse_complement (s : Sequence) : Sequence :=
  (s.map Nuc.compl).reverse

/-- `seq * k` in Python: `k` concatenated copies of `seq`. -/
def seqRepeat (s : Sequence) (k : Nat) : Sequence :=
  (List.replicate k s).flatten

/-- The `-c` (copy_number) argument: `argparse` leaves the default as the
integer `1`; an explicit command-line value arrives as a list (here already
parsed to the numbers `int(...)` would produce). -/
inductive CopyArg : Type where
  | default : CopyArg
  | list : List Nat → CopyArg

/-- One genome file: the list of its FASTA records' sequences. -/
abbrev GenomeFile := List Sequence

/-- The body of the inner loop of `get_sequence`: either
`genome.seq + part.seq` (when `args.copy_number == 1`, i.e. the default) or
`genome.seq + part.seq * int(args.copy_number[i])`, where the index lookup
can raise `IndexError` (modelled as `.error ()`). -/
def partTimesCopy (c : CopyArg) (i : Nat) (p : Sequence) : Except Unit Sequence :=
  match c with
  | .default => .ok p
  | .list cs =>
    match cs.get? i with
    | some k => .ok (seqRepeat p k)
    | none => .error ()

/-- The inner loop of `get_sequence`: append every record of file `i`
(each repeated per the copy argument) to the accumulated genome. -/
def appendParts (c : CopyArg) (i : Nat) : GenomeFile → Sequence → Except Unit Sequence
  | [], acc => .ok acc
  | p :: ps, acc =>
    match partTimesCopy c i p with
    | .ok piece => appendParts c i ps (acc ++ piece)
    | .error e => .error e

/-- The outer loop of `get_sequence` over `args.genome_sequence`, carrying
the running file index `i`. -/
def buildGenomeAux (c : CopyArg) : List GenomeFile → Nat → Sequence → Except Unit Sequence
  | [], _, acc => .ok acc
  | f :: fs, i, acc =>
    match appendParts c i f acc with
    | .ok acc' => buildGenomeAux c fs (i + 1) acc'
    | .error e => .error e

/-- The combined genome built by `get_sequence` from the files of
`args.genome_sequence`, starting from `SeqRecord(Seq(""))`. -/
def buildGenome (files : List GenomeFile) (c : CopyArg) : Except Unit Sequence :=
  buildGenomeAux c files 0 []

/-- `get_sequence(args)`: upper-case every target record and return it with
the combined, upper-cased genome (`genome.seq.upper()`). -/
def get_sequence (targets : List (String × Sequence)) (files : List GenomeFile)
    (c : CopyArg) : Except Unit (List (String × Sequence) × Sequence) :=
  match buildGenome files c with
  | .ok genome => .ok (targets.map (fun p => (p.1, upperSeq p.2)), upperSeq genome)
  | .error e => .error e

/-- The doubled reference genome materialized by `main`:
`ref_record + ref_record.reverse_complement()`. -/
def runGenome (genome : Sequence) : Sequence :=
  genome ++ reverse_complement genome

theorem length_reverse_complement (s : Sequence) :
    (reverse_complement s).length = s.length := by
  simp [reverse_complement]

theorem length_runGenome (s : Sequence) :
    (runGenome s).length = 2 * s.length := by
  simp [runGenome, length_reverse_complement]
  omega

theorem length_seqRepeat (s : Sequence) (k : Nat) :
    (seqRepeat s k).length = k * s.length := by
  induction k with
  | zero => simp [seqRepeat]
  | succ n ih =>
    simp only [seqRepeat, List.replicate_succ, List.flatten_cons, List.length_append]
    simp only [seqRepeat] at ih
    rw [ih]
    ring

theorem seqRepeat_one (s : Sequence) : seqRepeat s 1 = s := by
  simp [seqRepeat]

/-- The total genome length promised by the spec for an explicit copy-number
list: the sum over files of copy-number times the file's total record
length. -/
def totalLen (files : List GenomeFile) (cs : List Nat) : Nat :=
  ((files.zip cs).map (fun fc => fc.2 * (fc.1.map List.length).sum)).sum

theorem appendParts_default (f : GenomeFile) :
    ∀ acc i, appendParts .default i f acc = .ok (acc ++ f.flatten) := by
  induction f with
  | nil => intro acc i; simp [appendParts]
  | cons p ps ih =>
    intro acc i
    simp [appendParts, partTimesCopy, ih, List.append_assoc]

theorem appendParts_list (cs : List Nat) (i : Nat) (k : Nat)
    (hk : cs.get? i = some k) (f : GenomeFile) :
    ∀ acc, appendParts (.list cs) i f acc =
      .ok (acc ++ (f.map (fun p => seqRepeat p k)).flatten) := by
  rw [List.get?_eq_getElem?] at hk
  induction f with
  | nil => intro acc; simp [appendParts]
  | cons p ps ih =>
    intro acc
    simp [appendParts, partTimesCopy, hk, ih, List.append_assoc]

theorem get?_of_lt (cs : List Nat) (i : Nat) (h : i < cs.length) :
    cs.get? i = some (cs.getD i 0) := by
  rw [List.get?_eq_getElem?, List.getElem?_eq_getElem h, List.getD_eq_getElem _ _ h]

/-- Running total of `copy_number[i] * (total record length of file i)`
along the outer loop, starting at file index `i`. -/
def totalLenFrom (cs : List Nat) : List GenomeFile → Nat → Nat
  | [], _ => 0
  | f :: fs, i => cs.getD i 0 * (f.map List.length).sum + totalLenFrom cs fs (i + 1)

theorem totalLenFrom_eq_totalLen (cs : List Nat) :
    ∀ (fs : List GenomeFile) (i : Nat), i + fs.length ≤ cs.length →
      totalLenFrom cs fs i = totalLen fs (cs.drop i) := by
  intro fs
  induction fs with
  | nil => intro i _; simp [totalLenFrom, totalLen]
  | cons f fs ih =>
    intro i h
    have hi : i < cs.length := by simp at h; omega
    rw [List.drop_eq_getElem_cons hi]
    simp only [totalLenFrom, totalLen, List.zip_cons_cons, List.map_cons, List.sum_cons]
    have := ih (i + 1) (by simp at h ⊢; omega)
    simp only [totalLen] at this
    rw [this, List.getD_eq_getElem _ _ hi]

theorem length_flatten_seqRepeat (f : GenomeFile) (k : Nat) :
    ((f.map (fun p => seqRepeat p k)).flatten).length = k * (f.map List.length).sum := by
  rw [List.length_flatten, List.map_map]
  have : (List.length ∘ fun p => seqRepeat p k) = fun p : Sequence => k * p.length := by
    funext p
    exact length_seqRepeat p k
  rw [this, ← List.sum_map_mul_left]

theorem buildGenomeAux_list_ok (cs : List Nat) :
    ∀ (fs : List GenomeFile) (i : Nat) (acc : Sequence), i + fs.length ≤ cs.length →
      ∃ g, buildGenomeAux (.list cs) fs i acc = .ok g ∧
        g.length = acc.length + totalLenFrom cs fs i := by
  intro fs
  induction fs with
  | nil => intro i acc _; exact ⟨acc, rfl, by simp [totalLenFrom]⟩
  | cons f fs ih =>
    intro i acc h
    have hi : i < cs.length := by simp at h; omega
    obtain ⟨g, hg, hlen⟩ := ih (i + 1)
      (acc ++ (f.map (fun p => seqRepeat p (cs.getD i 0))).flatten)
      (by simp at h ⊢; omega)
    refine ⟨g, ?_, ?_⟩
    · simp only [buildGenomeAux, appendParts_list cs i _ (get?_of_lt cs i hi) f acc]
      exact hg
    · rw [hlen]
      simp only [List.length_append, length_flatten_seqRepeat, totalLenFrom]
      omega

theorem buildGenomeAux_default_ok :
    ∀ (fs : List GenomeFile) (i : Nat) (acc : Sequence),
      buildGenomeAux .default fs i acc = .ok (acc ++ (fs.map List.flatten).flatten) := by
  intro fs
  induction fs with
  | nil => intro i acc; simp [buildGenomeAux]
  | cons f fs ih =>
    intro i acc
    simp [buildGenomeAux, appendParts_default, ih, List.append_assoc]

theorem buildGenomeAux_ones (cs : List Nat) :
    ∀ (fs : List GenomeFile) (i : Nat) (acc : Sequence),
      (∀ j, i ≤ j → j < i + fs.length → cs.get? j = some 1) →
      buildGenomeAux (.list cs) fs i acc = buildGenomeAux .default fs i acc := by
  intro fs
  induction fs with
  | nil => intro i acc _; rfl
  | cons f fs ih =>
    intro i acc h
    have h1 : cs.get? i = some 1 := h i (Nat.le_refl i) (by simp)
    have hmap : f.map (fun p => seqRepeat p 1) = f := by
      rw [List.map_congr_left (fun p _ => seqRepeat_one p)]
      exact List.map_id f
    simp only [buildGenomeAux, appendParts_list cs i 1 h1 f acc, hmap, appendParts_default]
    exact ih (i + 1) _ (fun j hj hj' => h j (by omega) (by simp at hj' ⊢; omega))

theorem buildGenomeAux_list_error (cs : List Nat) :
    ∀ (fs : List GenomeFile) (i : Nat) (j : Nat) (acc : Sequence) (f : GenomeFile),
      fs.get? i = some f → f ≠ [] → cs.length ≤ j + i →
      buildGenomeAux (.list cs) fs j acc = .error () := by
  intro fs
  induction fs with
  | nil => intro i j acc f hf _ _; simp [List.get?] at hf
  | cons f0 fs ih =>
    intro i j acc f hf hne hlen
    match i, hf with
    | 0, hf =>
      have hf0 : f0 = f := by simpa [List.get?] using hf
      subst hf0
      match f0, hne with
      | p :: ps, _ =>
        have hnone : cs.get? j = none := List.get?_eq_none.mpr (by omega)
        rw [List.get?_eq_getElem?] at hnone
        simp [buildGenomeAux, appendParts, partTimesCopy, hnone]
    | i' + 1, hf =>
      have hf' : fs.get? i' = some f := by simpa [List.get?] using hf
      simp only [buildGenomeAux]
      match happ : appendParts (.list cs) j f0 acc with
      | .error e => rfl
      | .ok acc' => exact ih i' (j + 1) acc' f hf' hne (by omega)

theorem reverse_complement_involutive (s : Sequence) :
    reverse_complement (reverse_complement s) = s := by
  simp only [reverse_complement, List.map_reverse, List.reverse_reverse, List.map_map]
  have : (Nuc.compl ∘ Nuc.compl) = id := funext Nuc.compl_compl
  rw [this, List.map_id]

theorem mem_upperSeq_isUpper (s : Sequence) (x : Nuc) (hx : x ∈ upperSeq s) :
    Nuc.isUpper x = true := by
  obtain ⟨y, _, rfl⟩ := List.mem_map.mp hx
  exact Nuc.isUpper_upper y

/-- C2: with an explicit per-file copy-number list covering every genome
file, `get_sequence` succeeds and the doubled reference genome written by
`main` has length exactly `2 * Σ (copy_number_i * len(file_i))`. -/
theorem runGenome_length_eq_twice_totalLen (targets : List (String × Sequence))
    (files : List GenomeFile) (cs : List Nat) (h : files.length ≤ cs.length) :
    ∃ td g, get_sequence targets files (.list cs) = .ok (td, g) ∧
      (runGenome g).length = 2 * totalLen files cs := by
  obtain ⟨g0, hg0, hlen⟩ := buildGenomeAux_list_ok cs files 0 [] (by omega)
  refine ⟨targets.map (fun p => (p.1, upperSeq p.2)), upperSeq g0, ?_, ?_⟩
  · simp [get_sequence, buildGenome, hg0]
  · rw [length_runGenome]
    have hup : (upperSeq g0).length = g0.length := by simp [upperSeq]
    rw [hup, hlen]
    have := totalLenFrom_eq_totalLen cs files 0 (by omega)
    simp only [List.drop_zero] at this
    simp [this]

/-- Witness for C2 at a concrete input: two genome files with copy numbers
2 and 3, total length `2*1 + 3*2 = 8`, doubled length 16. -/
theorem runGenome_length_eq_twice_totalLen_witness :
    ([[[Nuc.a]], [[Nuc.C, Nuc.g]]] : List GenomeFile).length ≤ ([2, 3] : List Nat).length ∧
    ∃ td g, get_sequence [] [[[Nuc.a]], [[Nuc.C, Nuc.g]]] (.list [2, 3]) = .ok (td, g) ∧
      (runGenome g).length = 2 * totalLen [[[Nuc.a]], [[Nuc.C, Nuc.g]]] [2, 3] :=
  ⟨by decide, runGenome_length_eq_twice_totalLen [] [[[Nuc.a]], [[Nuc.C, Nuc.g]]] [2, 3]
    (by decide)⟩

/-- C6 counterexample: applying `reverse_complement` twice to the doubled
genome built from the forward genome `[A]` returns the doubled genome
`[A, T]`, not the original forward genome `[A]`. -/
theorem revcomp_twice_runGenome_ne_forward :
    reverse_complement (reverse_complement (runGenome [Nuc.A])) ≠ [Nuc.A] := by
  decide

/-- C6 amended: applying `reverse_complement` twice to the doubled genome
yields the doubled genome itself (reverse complement is an involution), and
the original forward genome is recovered as the doubled genome's first
half. -/
theorem revcomp_twice_runGenome (g : Sequence) :
    reverse_complement (reverse_complement (runGenome g)) = runGenome g ∧
    (runGenome g).take g.length = g :=
  ⟨reverse_complement_involutive (runGenome g), List.take_left g (reverse_complement g)⟩

/-- C7: whenever `get_sequence` succeeds, every symbol of every returned
target sequence and every symbol of the returned combined genome is upper
case, whatever the case of the input files. -/
theorem get_sequence_upper (targets : List (String × Sequence))
    (files : List GenomeFile) (c : CopyArg) (td : List (String × Sequence))
    (g : Sequence) (h : get_sequence targets files c = .ok (td, g)) :
    (∀ p ∈ td, ∀ x ∈ p.2, Nuc.isUpper x = true) ∧ ∀ x ∈ g, Nuc.isUpper x = true := by
  unfold get_sequence at h
  match hb : buildGenome files c with
  | .error e => rw [hb] at h; exact absurd h (by simp)
  | .ok genome =>
    rw [hb] at h
    simp only [Except.ok.injEq, Prod.mk.injEq] at h
    obtain ⟨htd, hg⟩ := h
    constructor
    · intro p hp x hx
      subst htd
      obtain ⟨q, _, rfl⟩ := List.mem_map.mp hp
      exact mem_upperSeq_isUpper _ x hx
    · intro x hx
      subst hg
      exact mem_upperSeq_isUpper _ x hx

/-- Witness for C7 at a concrete lower-case input. -/
theorem get_sequence_upper_witness :
    (∀ p ∈ [("t", [Nuc.A])], ∀ x ∈ p.2, Nuc.isUpper x = true) ∧
    ∀ x ∈ [Nuc.C], Nuc.isUpper x = true :=
  get_sequence_upper [("t", [Nuc.a])] [[[Nuc.c]]] .default [("t", [Nuc.A])] [Nuc.C]
    (by rfl)

/-- C8: when the copy-number argument is an explicit list with fewer entries
than there are genome files and some genome file at an out-of-range index
contains at least one record, `get_sequence` fails with the modelled
`IndexError` before returning any sequence. -/
theorem get_sequence_short_copy_list_error (targets : List (String × Sequence))
    (files : List GenomeFile) (cs : List Nat) (i : Nat) (f : GenomeFile)
    (hi : files.get? i = some f) (hne : f ≠ []) (hlen : cs.length ≤ i) :
    get_sequence targets files (.list cs) = .error () := by
  have : buildGenome files (.list cs) = .error () :=
    buildGenomeAux_list_error cs files i 0 [] f hi hne (by omega)
  simp [get_sequence, this]

/-- Witness for C8: one genome file holding one record, empty copy list. -/
theorem get_sequence_short_copy_list_error_witness :
    get_sequence [] [[[Nuc.A]]] (.list []) = .error () :=
  get_sequence_short_copy_list_error [] [[[Nuc.A]]] [] 0 [[Nuc.A]]
    (by rfl) (by decide) (by decide)

/-- C9: building the genome with the copy-number argument left at its
default (the integer `1`) produces exactly the same concatenated sequence
as building it with an explicit list of `1` entries, one per genome file. -/
theorem buildGenome_default_eq_ones (files : List GenomeFile) :
    buildGenome files .default =
      buildGenome files (.list (List.replicate files.length 1)) := by
  unfold buildGenome
  rw [buildGenomeAux_ones (List.replicate files.length 1) files 0 []]
  intro j _ hj
  rw [List.get?_eq_getElem?, List.getElem?_replicate]
  simp at hj
  simp [hj]

/-! ### Ranking and aggregation (lines 122-128 of `main`)

A result row of `results_df`: the three columns the spec names plus one
field standing for whatever intermediate columns the scorer retained.
Entropy scores enter ranking only through their ordering, so they are
modelled as integers. -/

structure Row : Type where
  geneName : String
  guideSeq : String
  entropyScore : Int
  extra : String
deriving DecidableEq, Repr

/-- Lexicographic comparison of character lists by code point: the order in
which Python compares the strings of the gene-name column. -/
def charsLtB : List Char → List Char → Bool
  | [], [] => false
  | [], _ :: _ => true
  | _ :: _, [] => false
  | c :: cs, d :: ds => if c < d then true else if d < c then false else charsLtB cs ds

/-- Strict lexicographic order on strings, Python style. -/
def strLt (x y : String) : Prop := charsLtB x.data y.data = true

instance (x y : String) : Decidable (strLt x y) := by
  unfold strLt
  exact inferInstance

theorem charsLtB_irrefl : ∀ l : List Char, charsLtB l l = false := by
  intro l
  induction l with
  | nil => rfl
  | cons c cs ih => simp [charsLtB, ih]

theorem charsLtB_trans :
    ∀ l₁ l₂ l₃ : List Char, charsLtB l₁ l₂ = true → charsLtB l₂ l₃ = true →
      charsLtB l₁ l₃ = true := by
  intro l₁
  induction l₁ with
  | nil =>
    intro l₂ l₃ h12 h23
    match l₂, l₃ with
    | [], _ => exact absurd h12 (by simp [charsLtB])
    | _ :: _, [] => exact absurd h23 (by simp [charsLtB])
    | _ :: _, _ :: _ => rfl
  | cons c cs ih =>
    intro l₂ l₃ h12 h23
    match l₂, l₃ with
    | [], _ => exact absurd h12 (by simp [charsLtB])
    | _ :: _, [] => exact absurd h23 (by simp [charsLtB])
    | d :: ds, e :: es =>
      simp only [charsLtB] at h12 h23 ⊢
      by_cases hcd : c < d
      · by_cases hde : d < e
        · rw [if_pos (hcd.trans hde)]
        · rw [if_neg hde] at h23
          by_cases hed : e < d
          · rw [if_pos hed] at h23; exact absurd h23 (by simp)
          · have : d = e := le_antisymm (not_lt.mp hed) (not_lt.mp hde)
            subst this
            rw [if_pos hcd]
      · rw [if_neg hcd] at h12
        by_cases hdc : d < c
        · rw [if_pos hdc] at h12; exact absurd h12 (by simp)
        · rw [if_neg hdc] at h12
          have : c = d := le_antisymm (not_lt.mp hdc) (not_lt.mp hcd)
          subst this
          by_cases hce : c < e
          · rw [if_pos hce]
          · rw [if_neg hce] at h23 ⊢
            by_cases hec : e < c
            · rw [if_pos hec] at h23; exact absurd h23 (by simp)
            · rw [if_neg hec] at h23 ⊢
              exact ih ds es h12 h23

theorem charsLtB_total :
    ∀ l₁ l₂ : List Char, charsLtB l₁ l₂ = true ∨ l₁ = l₂ ∨ charsLtB l₂ l₁ = true := by
  intro l₁
  induction l₁ with
  | nil =>
    intro l₂
    match l₂ with
    | [] => exact Or.inr (Or.inl rfl)
    | _ :: _ => exact Or.inl rfl
  | cons c cs ih =>
    intro l₂
    match l₂ with
    | [] => exact Or.inr (Or.inr rfl)
    | d :: ds =>
      rcases lt_trichotomy c d with h | h | h
      · exact Or.inl (by simp [charsLtB, h])
      · subst h
        rcases ih ds with h' | h' | h'
        · exact Or.inl (by simp [charsLtB, h'])
        · exact Or.inr (Or.inl (by rw [h']))
        · exact Or.inr (Or.inr (by simp [charsLtB, h']))
      · exact Or.inr (Or.inr (by simp [charsLtB, h, asymm h]))

theorem strLt_trans {x y z : String} (h₁ : strLt x y) (h₂ : strLt y z) : strLt x z :=
  charsLtB_trans _ _ _ h₁ h₂

theorem strLt_irrefl (x : String) : ¬ strLt x x := by
  simp [strLt, charsLtB_irrefl]

theorem strLt_asymm {x y : String} (h₁ : strLt x y) (h₂ : strLt y x) : False :=
  strLt_irrefl x (strLt_trans h₁ h₂)

theorem strLt_trichotomy (x y : String) : strLt x y ∨ x = y ∨ strLt y x := by
  rcases charsLtB_total x.data y.data with h | h | h
  · exact Or.inl h
  · exact Or.inr (Or.inl (String.ext h))
  · exact Or.inr (Or.inr h)

/-- The sort key of `sort_values(by=['Gene/ORF Name', 'Entropy Score'])`:
lexicographic on (gene name, entropy score). -/
def rowLE (x y : Row) : Prop :=
  strLt x.geneName y.geneName ∨
    (x.geneName = y.geneName ∧ x.entropyScore ≤ y.entropyScore)

instance : DecidableRel rowLE := fun x y => by
  unfold rowLE
  exact inferInstance

instance : IsTotal Row rowLE where
  total x y := by
    rcases strLt_trichotomy x.geneName y.geneName with h | h | h
    · exact Or.inl (Or.inl h)
    · rcases le_total x.entropyScore y.entropyScore with h' | h'
      · exact Or.inl (Or.inr ⟨h, h'⟩)
      · exact Or.inr (Or.inr ⟨h.symm, h'⟩)
    · exact Or.inr (Or.inl h)

instance : IsTrans Row rowLE where
  trans x y z hxy hyz := by
    rcases hxy with h | ⟨he, hs⟩
    · rcases hyz with h' | ⟨he', _⟩
      · exact Or.inl (strLt_trans h h')
      · exact Or.inl (he' ▸ h)
    · rcases hyz with h' | ⟨he', hs'⟩
      · exact Or.inl (he ▸ h')
      · exact Or.inr ⟨he.trans he', hs.trans hs'⟩

/-- A sorted pair of rows has lexicographically non-decreasing gene names. -/
theorem rowLE_gene_le {x y : Row} (h : rowLE x y) :
    strLt x.geneName y.geneName ∨ x.geneName = y.geneName := by
  rcases h with h | ⟨h, _⟩
  · exact Or.inl h
  · exact Or.inr h

/-- `results_df.sort_values(by=['Gene/ORF Name', 'Entropy Score'])`: a
stable sort on the lexicographic key. -/
def sort_values (l : List Row) : List Row := List.insertionSort rowLE l

/-- Keep-first deduplication, tracking the already-seen elements: the
semantics of both pandas `drop_duplicates()` (over whole rows) and pandas
`Series.unique()` (over the gene-name column). -/
def dedupFirstAux {α : Type} [DecidableEq α] (seen : List α) : List α → List α
  | [] => []
  | x :: xs => if x ∈ seen then dedupFirstAux seen xs else x :: dedupFirstAux (x :: seen) xs

/-- `results_df.drop_duplicates()` / `Series.unique()`: drop every element
equal to an earlier one, keeping first occurrences in order. -/
def drop_duplicates {α : Type} [DecidableEq α] (l : List α) : List α := dedupFirstAux [] l

/-- The `rank_array` built by `main`: for every gene in order of first
appearance, the integers `np.arange(1, num_guides + 1)`. -/
def rank_array (l : List Row) : List Nat :=
  (drop_duplicates (l.map Row.geneName)).flatMap fun g =>
    List.range' 1 (l.countP fun r => decide (r.geneName = g))

/-- Lines 122-128 of `main`: sort by (gene, entropy), drop duplicate rows,
then attach `rank_array` positionally as the `Rank in Target Gene`
column. -/
def rank_results (l : List Row) : List (Row × Nat) :=
  (drop_duplicates (sort_values l)).zip (rank_array (drop_duplicates (sort_values l)))

theorem mem_dedupFirstAux {α : Type} [DecidableEq α] (x : α) :
    ∀ (l seen : List α), x ∈ dedupFirstAux seen l ↔ x ∈ l ∧ x ∉ seen := by
  intro l
  induction l with
  | nil => intro seen; simp [dedupFirstAux]
  | cons y ys ih =>
    intro seen
    by_cases hy : y ∈ seen
    · simp only [dedupFirstAux, if_pos hy, ih, List.mem_cons]
      constructor
      · rintro ⟨hx, hns⟩; exact ⟨Or.inr hx, hns⟩
      · rintro ⟨hx | hx, hns⟩
        · exact absurd (hx ▸ hy) hns
        · exact ⟨hx, hns⟩
    · simp only [dedupFirstAux, if_neg hy, List.mem_cons, ih]
      constructor
      · rintro (rfl | ⟨hx, hns⟩)
        · exact ⟨Or.inl rfl, hy⟩
        · exact ⟨Or.inr hx, fun hc => hns (Or.inr hc)⟩
      · rintro ⟨rfl | hx, hns⟩
        · exact Or.inl rfl
        · by_cases hxy : x = y
          · exact Or.inl hxy
          · exact Or.inr ⟨hx, by simp [hxy, hns]⟩

theorem sublist_dedupFirstAux {α : Type} [DecidableEq α] :
    ∀ (l seen : List α), (dedupFirstAux seen l).Sublist l := by
  intro l
  induction l with
  | nil => intro seen; simp [dedupFirstAux]
  | cons y ys ih =>
    intro seen
    by_cases hy : y ∈ seen
    · simpa only [dedupFirstAux, if_pos hy] using (ih seen).cons y
    · simpa only [dedupFirstAux, if_neg hy] using (ih (y :: seen)).cons₂ y

theorem nodup_dedupFirstAux {α : Type} [DecidableEq α] :
    ∀ (l seen : List α), (dedupFirstAux seen l).Nodup := by
  intro l
  induction l with
  | nil => intro seen; simp [dedupFirstAux]
  | cons y ys ih =>
    intro seen
    by_cases hy : y ∈ seen
    · simpa only [dedupFirstAux, if_pos hy] using ih seen
    · simp only [dedupFirstAux, if_neg hy, List.nodup_cons]
      refine ⟨fun hc => ?_, ih (y :: seen)⟩
      exact ((mem_dedupFirstAux y ys (y :: seen)).mp hc).2 (List.mem_cons_self y seen)

theorem mem_drop_duplicates {α : Type} [DecidableEq α] (x : α) (l : List α) :
    x ∈ drop_duplicates l ↔ x ∈ l := by
  simp [drop_duplicates, mem_dedupFirstAux]

theorem nodup_drop_duplicates {α : Type} [DecidableEq α] (l : List α) :
    (drop_duplicates l).Nodup := nodup_dedupFirstAux l []

theorem sublist_drop_duplicates {α : Type} [DecidableEq α] (l : List α) :
    (drop_duplicates l).Sublist l := sublist_dedupFirstAux l []

theorem dedupFirstAux_seen_congr {α : Type} [DecidableEq α] :
    ∀ (l seen₁ seen₂ : List α), (∀ x ∈ l, (x ∈ seen₁ ↔ x ∈ seen₂)) →
      dedupFirstAux seen₁ l = dedupFirstAux seen₂ l := by
  intro l
  induction l with
  | nil => intro _ _ _; rfl
  | cons y ys ih =>
    intro seen₁ seen₂ h
    by_cases hy : y ∈ seen₁
    · have hy₂ : y ∈ seen₂ := (h y (List.mem_cons_self y ys)).mp hy
      simp only [dedupFirstAux, if_pos hy, if_pos hy₂]
      exact ih seen₁ seen₂ (fun x hx => h x (List.mem_cons_of_mem _ hx))
    · have hy₂ : y ∉ seen₂ := fun hc => hy ((h y (List.mem_cons_self y ys)).mpr hc)
      simp only [dedupFirstAux, if_neg hy, if_neg hy₂]
      refine congrArg (y :: ·) (ih _ _ fun x hx => ?_)
      simp only [List.mem_cons]
      rw [h x (List.mem_cons_of_mem _ hx)]

theorem dedupFirstAux_append_seen {α : Type} [DecidableEq α] :
    ∀ (xs ys seen : List α), (∀ x ∈ xs, x ∈ seen) →
      dedupFirstAux seen (xs ++ ys) = dedupFirstAux seen ys := by
  intro xs
  induction xs with
  | nil => intro ys seen _; rfl
  | cons x xs ih =>
    intro ys seen h
    simp only [List.cons_append, dedupFirstAux, if_pos (h x (List.mem_cons_self x xs))]
    exact ih ys seen (fun z hz => h z (List.mem_cons_of_mem _ hz))

/-- A list of rows is grouped by gene: a sequence of nonempty single-gene
blocks whose gene never occurs again later. Sorting by the lexicographic
(gene, entropy) key produces such a list. -/
inductive Grouped : List Row → Prop where
  | nil : Grouped []
  | blocks (g : String) (b rest : List Row) :
      b ≠ [] →
      (∀ r ∈ b, r.geneName = g) →
      (∀ r ∈ rest, r.geneName ≠ g) →
      Grouped rest →
      Grouped (b ++ rest)

theorem dropWhile_gene_ne (r : Row) :
    ∀ t : List Row, List.Pairwise rowLE t → (∀ x ∈ t, rowLE r x) →
      ∀ x ∈ t.dropWhile (fun y => decide (y.geneName = r.geneName)),
        x.geneName ≠ r.geneName := by
  intro t
  induction t with
  | nil => intro _ _ x hx; simp at hx
  | cons y ys ih =>
    intro hp hr x hx
    by_cases hy : y.geneName = r.geneName
    · rw [List.dropWhile_cons_of_pos (by simp [hy])] at hx
      exact ih (List.pairwise_cons.mp hp).2 (fun z hz => hr z (List.mem_cons_of_mem _ hz)) x hx
    · rw [List.dropWhile_cons_of_neg (by simp [hy])] at hx
      have hry : strLt r.geneName y.geneName := by
        rcases hr y (List.mem_cons_self y ys) with h | ⟨h, _⟩
        · exact h
        · exact absurd h.symm hy
      rcases List.mem_cons.mp hx with rfl | hx'
      · exact hy
      · have hyx : rowLE y x := (List.pairwise_cons.mp hp).1 x hx'
        rcases rowLE_gene_le hyx with h | h
        · intro hc
          have hrx : strLt r.geneName x.geneName := strLt_trans hry h
          rw [hc] at hrx
          exact strLt_irrefl r.geneName hrx
        · exact fun hc => hy (h ▸ hc)

theorem grouped_of_pairwise :
    ∀ (n : Nat) (l : List Row), l.length ≤ n → List.Pairwise rowLE l → Grouped l := by
  intro n
  induction n with
  | zero =>
    intro l hl _
    rw [List.length_eq_zero.mp (Nat.le_zero.mp hl)]
    exact .nil
  | succ n ih =>
    intro l hl hp
    match l with
    | [] => exact .nil
    | r :: t =>
      obtain ⟨hr, ht⟩ := List.pairwise_cons.mp hp
      have hsplit : (r :: t.takeWhile (fun y => decide (y.geneName = r.geneName))) ++
          t.dropWhile (fun y => decide (y.geneName = r.geneName)) = r :: t := by
        rw [List.cons_append, List.takeWhile_append_dropWhile]
      rw [← hsplit]
      refine Grouped.blocks r.geneName _ _ (by simp) ?_ ?_ ?_
      · intro x hx
        rcases List.mem_cons.mp hx with rfl | hx'
        · rfl
        · simpa using List.mem_takeWhile_imp hx'
      · exact dropWhile_gene_ne r t ht hr
      · refine ih _ ?_ (List.Pairwise.sublist (List.dropWhile_sublist _) ht)
        have h1 : (t.dropWhile (fun y => decide (y.geneName = r.geneName))).length ≤
            t.length := (List.dropWhile_sublist _).length_le
        have h2 : t.length ≤ n := by
          simpa using Nat.le_of_succ_le_succ (by simpa using hl)
        omega

theorem sorted_dedup_sort (l : List Row) :
    List.Pairwise rowLE (drop_duplicates (sort_values l)) :=
  List.Pairwise.sublist (sublist_drop_duplicates _) (List.sorted_insertionSort rowLE l)

theorem grouped_dedup_sort (l : List Row) :
    Grouped (drop_duplicates (sort_values l)) :=
  grouped_of_pairwise (drop_duplicates (sort_values l)).length _ (Nat.le_refl _)
    (sorted_dedup_sort l)

theorem dedupFirstAux_cons_not_mem {α : Type} [DecidableEq α] (seen : List α) (x : α)
    (xs : List α) (h : x ∉ seen) :
    dedupFirstAux seen (x :: xs) = x :: dedupFirstAux (x :: seen) xs := by
  simp [dedupFirstAux, h]

theorem unique_genes_append (g : String) (b rest : List Row) (hne : b ≠ [])
    (hb : ∀ r ∈ b, r.geneName = g) (hrest : ∀ r ∈ rest, r.geneName ≠ g) :
    drop_duplicates ((b ++ rest).map Row.geneName) =
      g :: drop_duplicates (rest.map Row.geneName) := by
  match b, hne with
  | r :: b', _ =>
    have hr : r.geneName = g := hb r (List.mem_cons_self r b')
    have hb' : ∀ x ∈ b'.map Row.geneName, x ∈ [g] := by
      intro x hx
      obtain ⟨q, hq, rfl⟩ := List.mem_map.mp hx
      simp [hb q (List.mem_cons_of_mem _ hq)]
    have hrest' : ∀ x ∈ rest.map Row.geneName, (x ∈ [g] ↔ x ∈ ([] : List String)) := by
      intro x hx
      obtain ⟨q, hq, rfl⟩ := List.mem_map.mp hx
      simp [hrest q hq]
    have e1 : ((r :: b') ++ rest).map Row.geneName =
        r.geneName :: (b'.map Row.geneName ++ rest.map Row.geneName) := by simp
    unfold drop_duplicates
    rw [e1, dedupFirstAux_cons_not_mem _ _ _ (List.not_mem_nil r.geneName), hr,
      dedupFirstAux_append_seen _ _ _ hb', dedupFirstAux_seen_congr _ _ _ hrest']

theorem countP_gene_append (g : String) (b rest : List Row)
    (hb : ∀ r ∈ b, r.geneName = g) (hrest : ∀ r ∈ rest, r.geneName ≠ g) :
    (b ++ rest).countP (fun r => decide (r.geneName = g)) = b.length := by
  rw [List.countP_append]
  have h1 : b.countP (fun r => decide (r.geneName = g)) = b.length :=
    List.countP_eq_length.mpr (fun r hr => by simp [hb r hr])
  have h2 : rest.countP (fun r => decide (r.geneName = g)) = 0 :=
    List.countP_eq_zero.mpr (fun r hr => by simp [hrest r hr])
  omega

theorem countP_gene_append_ne (g g' : String) (b rest : List Row) (hg : g' ≠ g)
    (hb : ∀ r ∈ b, r.geneName = g) :
    (b ++ rest).countP (fun r => decide (r.geneName = g')) =
      rest.countP (fun r => decide (r.geneName = g')) := by
  rw [List.countP_append]
  have h1 : b.countP (fun r => decide (r.geneName = g')) = 0 := by
    refine List.countP_eq_zero.mpr (fun r hr => ?_)
    simp only [hb r hr, decide_eq_true_eq]
    exact fun h => hg h.symm
  omega

theorem rank_array_append (g : String) (b rest : List Row) (hne : b ≠ [])
    (hb : ∀ r ∈ b, r.geneName = g) (hrest : ∀ r ∈ rest, r.geneName ≠ g) :
    rank_array (b ++ rest) = List.range' 1 b.length ++ rank_array rest := by
  unfold rank_array
  rw [unique_genes_append g b rest hne hb hrest]
  rw [List.flatMap_cons, countP_gene_append g b rest hb hrest]
  refine congrArg (List.range' 1 b.length ++ ·) ?_
  refine List.flatMap_congr (fun g' hg' => ?_)
  have hg'mem : g' ∈ rest.map Row.geneName :=
    (mem_drop_duplicates g' (rest.map Row.geneName)).mp hg'
  obtain ⟨q, hq, rfl⟩ := List.mem_map.mp hg'mem
  rw [countP_gene_append_ne g q.geneName b rest (hrest q hq) hb]

theorem rank_array_length (s : List Row) (hs : Grouped s) :
    (rank_array s).length = s.length := by
  induction hs with
  | nil => rfl
  | blocks g b rest hne hb hrest _ ih =>
    rw [rank_array_append g b rest hne hb hrest]
    simp [ih]

/-- The gene-`g` rows of the ranked output are exactly the gene-`g` rows of
the (sorted, deduplicated) frame, paired with the ranks `1..count`. -/
theorem rank_results_filter (s : List Row) (hs : Grouped s) (g : String) :
    (s.zip (rank_array s)).filter (fun p => decide (p.1.geneName = g)) =
      (s.filter (fun r => decide (r.geneName = g))).zip
        (List.range' 1 (s.countP (fun r => decide (r.geneName = g)))) := by
  induction hs with
  | nil => rfl
  | blocks g0 b rest hne hb hrest hgr ih =>
    rw [rank_array_append g0 b rest hne hb hrest,
      List.zip_append (by simp), List.filter_append, List.filter_append]
    by_cases hg : g = g0
    · subst hg
      have hA : (b.zip (List.range' 1 b.length)).filter
          (fun p => decide (p.1.geneName = g)) = b.zip (List.range' 1 b.length) := by
        refine List.filter_eq_self.mpr (fun p hp => ?_)
        obtain ⟨p1, p2⟩ := p
        simp [hb p1 (List.of_mem_zip hp).1]
      have hB : (rest.zip (rank_array rest)).filter
          (fun p => decide (p.1.geneName = g)) = [] := by
        refine List.filter_eq_nil_iff.mpr (fun p hp => ?_)
        obtain ⟨p1, p2⟩ := p
        simp [hrest p1 (List.of_mem_zip hp).1]
      have hC : b.filter (fun r => decide (r.geneName = g)) = b :=
        List.filter_eq_self.mpr (fun r hr => by simp [hb r hr])
      have hD : rest.filter (fun r => decide (r.geneName = g)) = [] :=
        List.filter_eq_nil_iff.mpr (fun r hr => by simp [hrest r hr])
      rw [hA, hB, hC, hD, countP_gene_append g b rest hb hrest, List.append_nil,
        List.append_nil]
    · have hA : (b.zip (List.range' 1 b.length)).filter
          (fun p => decide (p.1.geneName = g)) = [] := by
        refine List.filter_eq_nil_iff.mpr (fun p hp => ?_)
        obtain ⟨p1, p2⟩ := p
        simp only [hb p1 (List.of_mem_zip hp).1, decide_eq_true_eq]
        exact fun h => hg h.symm
      have hC : b.filter (fun r => decide (r.geneName = g)) = [] := by
        refine List.filter_eq_nil_iff.mpr (fun r hr => ?_)
        simp only [hb r hr, decide_eq_true_eq]
        exact fun h => hg h.symm
      rw [hA, hC, countP_gene_append_ne g0 g b rest hg hb, ih, List.nil_append,
        List.nil_append]

theorem pairwise_entropy_of_same_gene (g : String) :
    ∀ t : List Row, List.Pairwise rowLE t → (∀ x ∈ t, x.geneName = g) →
      t.Pairwise (fun a b => a.entropyScore ≤ b.entropyScore) := by
  intro t
  induction t with
  | nil => intro _ _; exact List.Pairwise.nil
  | cons y ys ih =>
    intro hp hgen
    obtain ⟨hy, hys⟩ := List.pairwise_cons.mp hp
    refine List.pairwise_cons.mpr ⟨fun x hx => ?_,
      ih hys (fun x hx => hgen x (List.mem_cons_of_mem _ hx))⟩
    rcases hy x hx with h | ⟨_, h⟩
    · have h1 : y.geneName = g := hgen y (List.mem_cons_self y ys)
      have h2 : x.geneName = g := hgen x (List.mem_cons_of_mem _ hx)
      rw [h1, h2] at h
      exact absurd h (strLt_irrefl g)
    · exact h

theorem rank_results_eq_zip (l : List Row) :
    rank_results l =
      (drop_duplicates (sort_values l)).zip (rank_array (drop_duplicates (sort_values l))) :=
  rfl

theorem ranksOfGene_eq_range (l : List Row) (g : String) :
    ((rank_results l).filter (fun p => decide (p.1.geneName = g))).map Prod.snd =
      List.range' 1
        ((rank_results l).filter (fun p => decide (p.1.geneName = g))).length := by
  rw [rank_results_eq_zip, rank_results_filter _ (grouped_dedup_sort l) g,
    List.countP_eq_length_filter]
  rw [List.map_snd_zip _ _ (by simp)]
  congr 1
  simp [List.length_zip]

/-- C5: within the ranked output, the ranks attached to the rows of any one
gene are exactly `1, 2, ..., n` in order: the rank sequence restarts at `1`
at every gene boundary. -/
theorem rank_restarts_per_gene (l : List Row) (g : String) :
    ((rank_results l).filter (fun p => decide (p.1.geneName = g))).map Prod.snd =
      List.range' 1
        ((rank_results l).filter (fun p => decide (p.1.geneName = g))).length :=
  ranksOfGene_eq_range l g

/-- C1 amended: within each gene the surviving rows appear in ascending
entropy order and receive the consecutive ordinal ranks `1..n` (1-based,
ascending); rows with equal entropy scores therefore receive distinct
consecutive ranks, not a shared dense rank. -/
theorem rank_ordinal_within_gene (l : List Row) (g : String) :
    (((rank_results l).filter (fun p => decide (p.1.geneName = g))).map Prod.fst).Pairwise
        (fun a b => a.entropyScore ≤ b.entropyScore) ∧
      ((rank_results l).filter (fun p => decide (p.1.geneName = g))).map Prod.snd =
        List.range' 1
          ((rank_results l).filter (fun p => decide (p.1.geneName = g))).length := by
  refine ⟨?_, ranksOfGene_eq_range l g⟩
  rw [rank_results_eq_zip, rank_results_filter _ (grouped_dedup_sort l) g,
    List.countP_eq_length_filter]
  rw [List.map_fst_zip _ _ (by simp)]
  refine pairwise_entropy_of_same_gene g _ ?_ ?_
  · exact List.Pairwise.sublist (List.filter_sublist _) (sorted_dedup_sort l)
  · intro x hx
    simpa using (List.mem_filter.mp hx).2

/-- C1 counterexample: two rows of one gene with equal entropy scores but
different guide sequences receive the distinct ranks 1 and 2 rather than a
shared rank. -/
theorem tied_rows_get_distinct_ranks :
    rank_results [⟨"g", "AAAA", 5, ""⟩, ⟨"g", "CCCC", 5, ""⟩] =
      [(⟨"g", "AAAA", 5, ""⟩, 1), (⟨"g", "CCCC", 5, ""⟩, 2)] ∧
      (⟨"g", "AAAA", 5, ""⟩ : Row).geneName = (⟨"g", "CCCC", 5, ""⟩ : Row).geneName ∧
      (⟨"g", "AAAA", 5, ""⟩ : Row).entropyScore =
        (⟨"g", "CCCC", 5, ""⟩ : Row).entropyScore ∧ (1 : Nat) ≠ 2 := by
  refine ⟨by decide, rfl, rfl, by decide⟩

/-- C4 amended: `drop_duplicates()` collapses rows that agree in every
column: the rows of the ranked output are exactly the distinct whole input
rows, each appearing once. Rows that agree only on gene, guide and entropy
but differ in a retained intermediate column both survive. -/
theorem output_rows_are_distinct_input_rows (l : List Row) :
    ((rank_results l).map Prod.fst).Nodup ∧
      ∀ r : Row, r ∈ (rank_results l).map Prod.fst ↔ r ∈ l := by
  have hlen := rank_array_length _ (grouped_dedup_sort l)
  have hfst : (rank_results l).map Prod.fst = drop_duplicates (sort_values l) := by
    rw [rank_results_eq_zip]
    exact List.map_fst_zip _ _ (le_of_eq hlen.symm)
  rw [hfst]
  refine ⟨nodup_drop_duplicates _, fun r => ?_⟩
  rw [mem_drop_duplicates]
  exact (List.perm_insertionSort rowLE l).mem_iff

/-- C4 counterexample: two rows that agree on gene name, guide sequence and
entropy score but differ in an intermediate column are both kept by
`drop_duplicates()`, so both appear in the final output. -/
theorem duplicate_keys_not_collapsed :
    rank_results [⟨"g", "AAAA", 5, "x"⟩, ⟨"g", "AAAA", 5, "y"⟩] =
      [(⟨"g", "AAAA", 5, "x"⟩, 1), (⟨"g", "AAAA", 5, "y"⟩, 2)] ∧
      (⟨"g", "AAAA", 5, "x"⟩ : Row).geneName = (⟨"g", "AAAA", 5, "y"⟩ : Row).geneName ∧
      (⟨"g", "AAAA", 5, "x"⟩ : Row).guideSeq = (⟨"g", "AAAA", 5, "y"⟩ : Row).guideSeq ∧
      (⟨"g", "AAAA", 5, "x"⟩ : Row).entropyScore =
        (⟨"g", "AAAA", 5, "y"⟩ : Row).entropyScore := by
  refine ⟨by decide, rfl, rfl, rfl⟩

/-- C3 counterexample: the same candidate set presented in two different
orders gives the tied rows opposite ranks: the (gene `g`, guide `AAAA`,
entropy 5) row ranks 1 in one run and 2 in the other. -/
theorem rank_depends_on_input_order :
    List.Perm [(⟨"g", "AAAA", 5, ""⟩ : Row), ⟨"g", "CCCC", 5, ""⟩]
        [⟨"g", "CCCC", 5, ""⟩, ⟨"g", "AAAA", 5, ""⟩] ∧
      rank_results [⟨"g", "AAAA", 5, ""⟩, ⟨"g", "CCCC", 5, ""⟩] =
        [(⟨"g", "AAAA", 5, ""⟩, 1), (⟨"g", "CCCC", 5, ""⟩, 2)] ∧
      rank_results [⟨"g", "CCCC", 5, ""⟩, ⟨"g", "AAAA", 5, ""⟩] =
        [(⟨"g", "CCCC", 5, ""⟩, 1), (⟨"g", "AAAA", 5, ""⟩, 2)] := by
  refine ⟨by decide, by decide, by decide⟩

theorem rowLE_antisymm_key {r s : Row} (h₁ : rowLE r s) (h₂ : rowLE s r) :
    r.geneName = s.geneName ∧ r.entropyScore = s.entropyScore := by
  rcases h₁ with h | ⟨he, hs⟩
  · rcases h₂ with h' | ⟨he', _⟩
    · exact absurd h' (fun h' => strLt_asymm h h')
    · rw [he'] at h
      exact absurd h (strLt_irrefl _)
  · rcases h₂ with h' | ⟨he', hs'⟩
    · rw [he] at h'
      exact absurd h' (strLt_irrefl _)
    · exact ⟨he, le_antisymm hs hs'⟩

theorem eq_of_perm_of_pairwise (l₁ : List Row) :
    ∀ l₂, l₁.Perm l₂ → l₁.Pairwise rowLE → l₂.Pairwise rowLE →
      (∀ r ∈ l₁, ∀ s ∈ l₁, rowLE r s → rowLE s r → r = s) → l₁ = l₂ := by
  induction l₁ with
  | nil =>
    intro l₂ hperm _ _ _
    exact (hperm.symm.eq_nil).symm
  | cons a t₁ ih =>
    intro l₂ hperm hp₁ hp₂ hanti
    match l₂ with
    | [] => exact absurd hperm.eq_nil (by simp)
    | b :: t₂ =>
      have hab : a = b := by
        have ha2 : a ∈ b :: t₂ := hperm.mem_iff.mp (List.mem_cons_self a t₁)
        have hb1 : b ∈ a :: t₁ := hperm.mem_iff.mpr (List.mem_cons_self b t₂)
        rcases List.mem_cons.mp ha2 with h | h
        · exact h
        · rcases List.mem_cons.mp hb1 with h' | h'
          · exact h'.symm
          · have h1 : rowLE a b := (List.pairwise_cons.mp hp₁).1 b h'
            have h2 : rowLE b a := (List.pairwise_cons.mp hp₂).1 a h
            exact hanti a (List.mem_cons_self a t₁) b (List.mem_cons_of_mem _ h') h1 h2
      subst hab
      have ht : t₁ = t₂ :=
        ih t₂ hperm.cons_inv (List.pairwise_cons.mp hp₁).2 (List.pairwise_cons.mp hp₂).2
          (fun r hr s hs => hanti r (List.mem_cons_of_mem _ hr) s (List.mem_cons_of_mem _ hs))
      rw [ht]

/-- C3 amended: ranking is order-independent provided no two distinct
surviving rows of one gene share an entropy score: running aggregation on
any two orderings of the same candidate rows then gives identical
`rank_in_target_gene` assignments. With a tie between distinct rows the
assignment depends on the input order. -/
theorem rank_results_perm_invariant (l₁ l₂ : List Row) (hperm : l₁.Perm l₂)
    (hkey : ∀ r ∈ l₁, ∀ s ∈ l₁, r.geneName = s.geneName →
      r.entropyScore = s.entropyScore → r = s) :
    rank_results l₁ = rank_results l₂ := by
  suffices h : drop_duplicates (sort_values l₁) = drop_duplicates (sort_values l₂) by
    rw [rank_results_eq_zip, rank_results_eq_zip, h]
  refine eq_of_perm_of_pairwise _ _ ?_ (sorted_dedup_sort l₁) (sorted_dedup_sort l₂) ?_
  · refine (List.perm_ext_iff_of_nodup (nodup_drop_duplicates _)
      (nodup_drop_duplicates _)).mpr (fun a => ?_)
    rw [mem_drop_duplicates, mem_drop_duplicates]
    unfold sort_values
    rw [(List.perm_insertionSort rowLE l₁).mem_iff, (List.perm_insertionSort rowLE l₂).mem_iff]
    exact hperm.mem_iff
  · intro r hr s hs h1 h2
    have hrl : r ∈ l₁ := (List.perm_insertionSort rowLE l₁).mem_iff.mp
      ((mem_drop_duplicates r _).mp hr)
    have hsl : s ∈ l₁ := (List.perm_insertionSort rowLE l₁).mem_iff.mp
      ((mem_drop_duplicates s _).mp hs)
    obtain ⟨hg, he⟩ := rowLE_antisymm_key h1 h2
    exact hkey r hrl s hsl hg he

/-- Witness for the amended C3 at a concrete input: two rows of one gene
with distinct entropy scores, presented in both orders. -/
theorem rank_results_perm_invariant_witness :
    List.Perm [(⟨"g", "AAAA", 4, ""⟩ : Row), ⟨"g", "CCCC", 7, ""⟩]
        [⟨"g", "CCCC", 7, ""⟩, ⟨"g", "AAAA", 4, ""⟩] ∧
      rank_results [(⟨"g", "AAAA", 4, ""⟩ : Row), ⟨"g", "CCCC", 7, ""⟩] =
        rank_results [⟨"g", "CCCC", 7, ""⟩, ⟨"g", "AAAA", 4, ""⟩] :=
  ⟨by decide, rank_results_perm_invariant _ _ (by decide) (by decide)⟩

/-! ### The output-directory prologue of `main` (lines 96-100) -/

/-- File-system state seen by `main`: the existing directories and a map
from file paths to contents. -/
structure FileSys : Type where
  dirs : List String
  fileMap : List (String × String)

/-- `os.makedirs(path)`: raises `FileExistsError` when the path already
exists. -/
def makedirs (fs : FileSys) (p : String) : Except String FileSys :=
  if p ∈ fs.dirs then .error ("FileExistsError")
  else .ok { fs with dirs := p :: fs.dirs }

/-- Lines 97-100 of `main`:
`try: os.makedirs(args.output_path) except FileExistsError: pass`.
`none` stands for an uncaught exception aborting the run. -/
def makedirsCaught (fs : FileSys) (p : String) : Option FileSys :=
  match makedirs fs p with
  | .ok fs' => some fs'
  | .error e => if e = ("FileExistsError") then some fs else none

/-- An overwriting file write, as `SeqIO.write` and
`DataFrame.to_csv` perform on an existing path. -/
def writeOut (fs : FileSys) (p content : String) : FileSys :=
  { fs with fileMap := (p, content) :: fs.fileMap.filter (fun q => decide (q.1 ≠ p)) }

/-- Reading a written file back. -/
def readOut (fs : FileSys) (p : String) : Option String :=
  (fs.fileMap.find? (fun q => decide (q.1 = p))).map Prod.snd

/-- C10: when the configured output path already exists as a directory,
`main`'s prologue catches `FileExistsError` and proceeds with the state
unchanged (the run is never aborted), and a second run's write to the same
artifact path overwrites the first run's content. -/
theorem existing_output_dir_never_aborts (fs : FileSys) (p : String) (h : p ∈ fs.dirs) :
    makedirsCaught fs p = some fs ∧
      ∀ (fs' : FileSys) (art₁ art₂ : String),
        readOut (writeOut (writeOut fs' p art₁) p art₂) p = some art₂ := by
  constructor
  · simp [makedirsCaught, makedirs, h]
  · intro fs' a1 a2
    simp [readOut, writeOut, List.find?]

/-- Witness for C10 at a concrete state whose output directory exists. -/
theorem existing_output_dir_never_aborts_witness :
    makedirsCaught ⟨[("output")], []⟩ ("output") = some ⟨[("output")], []⟩ ∧
      readOut (writeOut (writeOut ⟨[("output")], []⟩ ("output/output.csv") ("v1"))
        ("output/output.csv") ("v2")) ("output/output.csv") = some ("v2") :=
  ⟨(existing_output_dir_never_aborts ⟨[("output")], []⟩ ("output") (by decide)).1,
    (existing_output_dir_never_aborts ⟨[("output")], []⟩ ("output") (by decide)).2
      ⟨[("output")], []⟩ ("v1") ("v2")⟩

end GuideFinder
